import Mathlib

/-!
Verification development for the cognitive-stack repository.

The definitions below are a shallow embedding of the Python sources:
  providers.py      (sanitize_error, Response, BaseProvider._request_with_retry,
                     the four provider complete methods, query_council)
  sonar_client.py   (SonarClient._wait_for_task)
  feedback_loop.py  (LinterResult, IterationResult, FeedbackLoop.run,
                     FeedbackLoop._run_iteration, FeedbackLoop._fix_single_file,
                     FeedbackLoop._extract_code_from_response)

Machine integers are modelled as Nat, Python strings as Lean String or
List Char, fractional second delays as rationals, and fallible code as
Except / Option.  Network transports, linter processes and the LLM are
modelled as explicit function parameters (oracles), so every definition
is executable.
-/

namespace CognitiveStack

/-! ### providers.py : sanitize_error

Each regex in _SANITIZE_PATTERNS has the shape
  <literal prelude> [A-Za-z0-9_-]{n,}
with a greedy open-ended counted class, so a match at a position is the
literal prelude followed by the maximal run of key characters after it,
accepted when that run has length at least n.  re.sub replaces all
non-overlapping matches scanning left to right.  subPat implements
exactly that scan for one pattern; sanitizeL folds the seven patterns in
source order. -/

/-- The character class [A-Za-z0-9_-] of the sanitizer regexes. -/
def keyChar (c : Char) : Bool := c.isAlpha || c.isDigit || c == '-' || c == '_'

/-- One sanitizer pattern: literal prelude, minimum run length, replacement. -/
structure Pat where
  pre : List Char
  minLen : Nat
  repl : List Char
deriving DecidableEq

/-- The seven _SANITIZE_PATTERNS of providers.py, in source order. -/
def sanitizePats : List Pat :=
  [⟨"key=".toList, 15, "key=***REDACTED***".toList⟩,
   ⟨"sk-proj-".toList, 20, "sk-proj-***REDACTED***".toList⟩,
   ⟨"sk-".toList, 20, "sk-***REDACTED***".toList⟩,
   ⟨"sk-ant-api".toList, 20, "sk-ant-***REDACTED***".toList⟩,
   ⟨"AIzaSy".toList, 30, "***REDACTED_GOOGLE_KEY***".toList⟩,
   ⟨"Bearer ".toList, 20, "Bearer ***REDACTED***".toList⟩,
   ⟨"x-api-key: ".toList, 20, "x-api-key: ***REDACTED***".toList⟩]

/-- Length of the match of pattern P at the head of s, if any: the literal
prelude followed by the maximal keyChar run, accepted when the run is long
enough (greedy counted class with nothing after it). -/
def headLen (P : Pat) (s : List Char) : Option Nat :=
  if P.pre.isPrefixOf s then
    if P.minLen ≤ ((s.drop P.pre.length).takeWhile keyChar).length then
      some (P.pre.length + ((s.drop P.pre.length).takeWhile keyChar).length)
    else none
  else none

/-- re.sub for one pattern: scan left to right, replace each match, continue
after the replaced text. -/
def subPat (P : Pat) : List Char → List Char
  | [] => []
  | c :: rest =>
    match headLen P (c :: rest) with
    | some n => P.repl ++ subPat P (rest.drop (n - 1))
    | none => c :: subPat P rest
termination_by s => s.length
decreasing_by
  all_goals simp only [List.length_drop, List.length_cons]
  all_goals omega

/-- sanitize_error on character lists: apply the seven substitutions in order. -/
def sanitizeL (s : List Char) : List Char :=
  sanitizePats.foldl (fun acc P => subPat P acc) s

/-- providers.sanitize_error. -/
def sanitize_error (s : String) : String := (sanitizeL s.toList).asString

/-- The common core of every replacement marker. -/
def redactMarker : List Char := "REDACTED".toList

/-- A pattern matches at the head of s: the literal prelude is present and
the maximal keyChar run after it is long enough.  headLen P s is some iff
evidence P s holds. -/
def evidence (P : Pat) (s : List Char) : Prop :=
  P.pre.isPrefixOf s ∧ P.minLen ≤ ((s.drop P.pre.length).takeWhile keyChar).length

instance (P : Pat) (s : List Char) : Decidable (evidence P s) := by
  unfold evidence; infer_instance

/-- The star-free leading part of a replacement string. -/
def Lpart (Q : Pat) : List Char := Q.repl.takeWhile fun c => c ≠ '*'

/-- No match evidence of P fits inside the replacement text of Q. -/
def crossGood (Q P : Pat) : Prop :=
  ∀ a, a < Q.repl.length →
    ¬(a + (P.pre.length + P.minLen) ≤ Q.repl.length ∧ evidence P (Q.repl.drop a))

instance (Q P : Pat) : Decidable (crossGood Q P) := by
  unfold crossGood; infer_instance

/-! ### providers.py : Response and the retry loop -/

/-- Token usage statistics, an opaque JSON dict in the source. -/
abbrev Usage := List (String × Nat)

/-- providers.Response (the CompletionResult of the spec). -/
structure Response where
  provider : String
  model : String
  content : String
  error : Option String := none
  usage : Option Usage := none
deriving DecidableEq

/-- Response.ok: the call is successful iff error is None. -/
def Response.ok (r : Response) : Bool := r.error.isNone

/-- Outcome of one transport attempt (client.request + raise_for_status):
either a response body id, or one of the exception classes distinguished by
_request_with_retry.  otherError stands for any exception that is neither an
HTTPStatusError nor a ConnectError / ReadTimeout and therefore propagates. -/
inductive TransportResult where
  | success (resp : Nat)
  | httpError (status : Nat)
  | connectError
  | readTimeout
  | otherError (e : Nat)
deriving DecidableEq

/-- Result of _request_with_retry: the final Except outcome, the number of
attempts issued, and the list of backoff delays slept, in seconds (rational,
since the code sleeps 2 ** attempt + 0.5). -/
structure RetryOutcome where
  result : Except TransportResult Nat
  attempts : Nat
  delays : List ℚ

/-- The retry loop of BaseProvider._request_with_retry from attempt a with
`left` further attempts allowed after this one.  A 4xx other than 429 and any
unclassified exception surface immediately; 429, connection errors and read
timeouts retry after a sleep of 2 ^ a + 0.5 seconds while attempts remain,
and the last error is raised when attempts run out. -/
def retryAux (tr : Nat → TransportResult) (a : Nat) : Nat → RetryOutcome
  | 0 =>
    match tr a with
    | .success n => ⟨.ok n, 1, []⟩
    | r => ⟨.error r, 1, []⟩
  | left + 1 =>
    match tr a with
    | .success n => ⟨.ok n, 1, []⟩
    | .httpError s =>
      if 400 ≤ s ∧ s < 500 ∧ s ≠ 429 then ⟨.error (.httpError s), 1, []⟩
      else
        let o := retryAux tr (a + 1) left
        ⟨o.result, o.attempts + 1, ((2 : ℚ) ^ a + 1 / 2) :: o.delays⟩
    | .connectError =>
      let o := retryAux tr (a + 1) left
      ⟨o.result, o.attempts + 1, ((2 : ℚ) ^ a + 1 / 2) :: o.delays⟩
    | .readTimeout =>
      let o := retryAux tr (a + 1) left
      ⟨o.result, o.attempts + 1, ((2 : ℚ) ^ a + 1 / 2) :: o.delays⟩
    | .otherError e => ⟨.error (.otherError e), 1, []⟩

/-- BaseProvider._request_with_retry with maxRetries extra attempts. -/
def request_with_retry (tr : Nat → TransportResult) (maxRetries : Nat) : RetryOutcome :=
  retryAux tr 0 maxRetries

/-- The transient errors named by the claim: HTTP 429, connection failure,
read timeout. -/
def ClaimRetryable (r : TransportResult) : Prop :=
  r = .httpError 429 ∨ r = .connectError ∨ r = .readTimeout

instance : DecidablePred ClaimRetryable := fun r => by
  unfold ClaimRetryable; infer_instance

/-- The backoff schedule: the k-th delay (0-indexed) is 2 ^ k + 0.5 seconds. -/
def backoffDelays (m : Nat) : List ℚ :=
  (List.range m).map fun k => (2 : ℚ) ^ k + 1 / 2

/-! ### providers.py : the provider complete methods

The HTTP layer below _request_with_retry is abstracted into the outcome the
provider code actually branches on: either a raised exception rendered by
str(e), or an HTTP success whose relevant fields were already extracted by
_safe_get (with default ""). -/

/-- Outcome of the request as seen by OpenAI / Anthropic / Ollama complete:
a raised exception, or a parsed body giving the extracted content string
(default "") and the usage dict. -/
inductive ReqOutcome where
  | failure (err : String)
  | success (content : String) (usage : Option Usage)
deriving DecidableEq

/-- OpenAIProvider.complete after the request resolved. -/
def openai_complete (model : String) (o : ReqOutcome) : Response :=
  match o with
  | .failure e =>
    { provider := "openai", model := model, content := "", error := some (sanitize_error e) }
  | .success content usage =>
    if content = "" then
      { provider := "openai", model := model, content := "",
        error := some "Empty response from API" }
    else
      { provider := "openai", model := model, content := content, usage := usage }

/-- AnthropicProvider.complete after the request resolved. -/
def anthropic_complete (model : String) (o : ReqOutcome) : Response :=
  match o with
  | .failure e =>
    { provider := "anthropic", model := model, content := "", error := some (sanitize_error e) }
  | .success content usage =>
    if content = "" then
      { provider := "anthropic", model := model, content := "",
        error := some "Empty response from API" }
    else
      { provider := "anthropic", model := model, content := content, usage := usage }

/-- OllamaProvider.complete after the request resolved (no usage recorded). -/
def ollama_complete (model : String) (o : ReqOutcome) : Response :=
  match o with
  | .failure e =>
    { provider := "ollama", model := model, content := "", error := some (sanitize_error e) }
  | .success content _ =>
    if content = "" then
      { provider := "ollama", model := model, content := "",
        error := some "Empty response from API" }
    else
      { provider := "ollama", model := model, content := content }

/-- Outcome of the request as seen by GoogleProvider.complete: a raised
exception, or a parsed body giving the extracted text (default ""), the
finishReason of candidate 0 if present, and usageMetadata. -/
inductive GoogleOutcome where
  | failure (err : String)
  | success (content : String) (finishReason : Option String) (usage : Option Usage)
deriving DecidableEq

/-- GoogleProvider.complete after the request resolved.  An empty content
with a truthy finishReason other than "STOP" reports a block; an empty
content otherwise reports the fixed empty-response error. -/
def google_complete (model : String) (o : GoogleOutcome) : Response :=
  match o with
  | .failure e =>
    { provider := "google", model := model, content := "", error := some (sanitize_error e) }
  | .success content finishReason usage =>
    if content = "" then
      match finishReason with
      | some r =>
        if r ≠ "" ∧ r ≠ "STOP" then
          { provider := "google", model := model, content := "",
            error := some ("Response blocked: " ++ r) }
        else
          { provider := "google", model := model, content := "",
            error := some "Empty response from API" }
      | none =>
        { provider := "google", model := model, content := "",
          error := some "Empty response from API" }
    else
      { provider := "google", model := model, content := content, usage := usage }

/-! ### providers.py : query_council -/

/-- One conversation message. -/
structure Msg where
  role : String
  content : String

/-- A council member: its complete method, which never raises (all expected
failures are embedded in the Response). -/
structure CouncilClient where
  complete : List Msg → String → Response

/-- providers.query_council: asyncio.gather over all clients, one result slot
per client in input order, no short-circuiting; the empty client list returns
the empty list at once. -/
def query_council : List CouncilClient → List Msg → String → List Response
  | [], _, _ => []
  | p :: ps, messages, system => p.complete messages system :: query_council ps messages system

/-! ### sonar_client.py : SonarReport and _wait_for_task -/

/-- sonar_client.SonarIssue. -/
structure SonarIssue where
  rule : String
  severity : String
  message : String
  file : String
  line : Nat
  effort : String := ""
deriving DecidableEq

/-- sonar_client.SonarReport. -/
structure SonarReport where
  project_key : String
  issues : List SonarIssue
deriving DecidableEq

/-- SonarReport.passed: no issues found. -/
def SonarReport.passed (r : SonarReport) : Bool := r.issues.isEmpty

/-- Outcome of _wait_for_task, with the number of status checks performed:
normal return on SUCCESS, a raised RuntimeError on FAILED / CANCELED, a
raised TimeoutError when the wall clock runs out. -/
inductive PollResult where
  | succeeded (checks : Nat)
  | failed (status : String) (checks : Nat)
  | timedOut (checks : Nat)
deriving DecidableEq

/-- The polling loop of SonarClient._wait_for_task under the idealized clock
in which the k-th status check happens at time k * pollInterval (each request
is instantaneous and each sleep advances the clock by pollInterval).  The
while condition time - start < timeout is re-checked before every poll.  fuel
bounds the recursion and is chosen large enough to never run out when
pollInterval ≥ 1. -/
def waitAux (status : Nat → String) (timeout pollInterval : Nat) : Nat → Nat → PollResult
  | 0, k => .timedOut k
  | fuel + 1, k =>
    if k * pollInterval < timeout then
      if status k = "SUCCESS" then .succeeded (k + 1)
      else if status k = "FAILED" ∨ status k = "CANCELED" then .failed (status k) (k + 1)
      else waitAux status timeout pollInterval fuel (k + 1)
    else .timedOut k

/-- SonarClient._wait_for_task. -/
def wait_for_task (status : Nat → String) (timeout pollInterval : Nat) : PollResult :=
  waitAux status timeout pollInterval (timeout + 1) 0

/-! ### feedback_loop.py : data model -/

/-- feedback_loop.LinterResult. -/
structure LinterResult where
  linter : String
  passed : Bool
  output : String := ""
  fixed_count : Nat := 0
deriving DecidableEq

/-- feedback_loop.IterationResult. -/
structure IterationResult where
  iteration : Nat
  linter_results : List LinterResult := []
  sonar_report : Option SonarReport := none
  fixes_applied : Bool := false
  error : Option String := none
deriving DecidableEq

/-- IterationResult.passed: all linters passed, and the sonar report is
absent or passed. -/
def IterationResult.passed (it : IterationResult) : Bool :=
  it.linter_results.all (fun r => r.passed) &&
    (match it.sonar_report with
     | none => true
     | some r => r.passed)

/-- feedback_loop.FeedbackLoopResult. -/
structure FeedbackLoopResult where
  iterations : List IterationResult
  final_passed : Bool
  total_issues_fixed : Nat
deriving DecidableEq

/-- The finding count of result.iterations[-2] used by FeedbackLoop.run:
the previous iteration's issue count when it exists and has a report, else 0
(the acc list holds the recorded iterations most recent first). -/
def prevCount (acc : List IterationResult) : Nat :=
  match acc with
  | [] => 0
  | prev :: _ =>
    match prev.sonar_report with
    | some r => r.issues.length
    | none => 0

/-- Python truthiness of an Optional[str]: None and the empty string are
falsy, every other string is truthy (the `if iteration.error:` check of
FeedbackLoop.run). -/
def truthyStr (e : Option String) : Bool :=
  match e with
  | none => false
  | some s => !(s = "")

/-- The loop body of FeedbackLoop.run.  oracle i is the IterationResult that
_run_iteration produces for iteration i; i is the next iteration index, the
second argument the remaining budget, acc the recorded iterations most recent
first, total the running total_issues_fixed.  Mirrors the source order:
passed breaks first (setting final_passed), then `if iteration.error:` breaks
on a truthy (non-None, non-empty) error string, otherwise
max(0, previous - current) is added when the iteration has a report. -/
def runAux (oracle : Nat → IterationResult) :
    Nat → Nat → List IterationResult → Nat → FeedbackLoopResult
  | _, 0, acc, total => ⟨acc.reverse, false, total⟩
  | i, b + 1, acc, total =>
    let it := oracle i
    if it.passed then ⟨(it :: acc).reverse, true, total⟩
    else if truthyStr it.error then ⟨(it :: acc).reverse, false, total⟩
    else
      runAux oracle (i + 1) b (it :: acc)
        (match it.sonar_report with
         | none => total
         | some rep => total + (prevCount acc - rep.issues.length))

/-- FeedbackLoop.run: iterations 1 .. max_iterations. -/
def FeedbackLoop.run (oracle : Nat → IterationResult) (maxIterations : Nat) :
    FeedbackLoopResult :=
  runAux oracle 1 maxIterations [] 0

/-- FeedbackLoop._run_iteration: linters run first, then scan_and_wait; an
exception from the scan is captured into the error field with no report;
otherwise fixes are attempted exactly when the iteration has not passed
(fixesApplied is the value _apply_llm_fixes would return). -/
def run_iteration (i : Nat) (linters : List LinterResult)
    (scan : Except String SonarReport) (fixesApplied : Bool) : IterationResult :=
  match scan with
  | .error e =>
    { iteration := i, linter_results := linters, sonar_report := none,
      fixes_applied := false, error := some e }
  | .ok rep =>
    let base : IterationResult :=
      { iteration := i, linter_results := linters, sonar_report := some rep,
        fixes_applied := false, error := none }
    if base.passed then base else { base with fixes_applied := fixesApplied }

/-! ### feedback_loop.py : code extraction and per-file fix -/

/-- str.split("\n"): split a character list on newlines, keeping empty
segments, so the empty string yields one empty line. -/
def splitLines : List Char → List (List Char)
  | [] => [[]]
  | c :: rest =>
    let r := splitLines rest
    if c = '\n' then [] :: r
    else
      match r with
      | h :: t => (c :: h) :: t
      | [] => [[c]]

/-- The line scan of _extract_code_from_response: enter the block at the
first fence line, collect lines, stop at the closing fence. -/
def extractScan : List (List Char) → Bool → List (List Char) → List (List Char)
  | [], _, acc => acc.reverse
  | l :: ls, inBlock, acc =>
    if ("```".toList).isPrefixOf l ∧ inBlock = false then extractScan ls true acc
    else if ("```".toList).isPrefixOf l ∧ inBlock = true then acc.reverse
    else if inBlock then extractScan ls inBlock (l :: acc)
    else extractScan ls inBlock acc

/-- FeedbackLoop._extract_code_from_response: the first fenced block's lines
joined by newlines, or None when no line was collected. -/
def extract_code_from_response (response : List Char) : Option (List Char) :=
  let code := extractScan (splitLines response) false []
  if code = [] then none else some (List.intercalate ['\n'] code)

/-- FeedbackLoop._fix_single_file.  The file system is a map from path to
content; resp is what self.llm.complete returned for the fix prompt.  Returns
whether a fix was applied together with the file system afterwards: on
success with a non-empty fenced block that differs from the original (the
source checks `not fixed_content or fixed_content == original_content`), the
original is written to path + ".bak"
(full_path.with_suffix(full_path.suffix + ".bak")) and the file is
overwritten; in every other case nothing on disk changes. -/
def fix_single_file (fs : String → Option String) (filePath : String) (resp : Response) :
    Bool × (String → Option String) :=
  match fs filePath with
  | none => (false, fs)
  | some original =>
    if resp.error.isSome ∨ resp.content = "" then (false, fs)
    else
      match extract_code_from_response resp.content.toList with
      | none => (false, fs)
      | some fixedL =>
        if fixedL = [] ∨ fixedL = original.toList then (false, fs)
        else
          (true, fun p =>
            if p = filePath then some fixedL.asString
            else if p = filePath ++ ".bak" then some original
            else fs p)

/-! ### claim arithmetic helpers -/

/-- The total max(0, previous - current) accumulation of FeedbackLoop.run
over a run of finding counts that ends in a terminal passing iteration: the
first argument is the count available as previous for the first iteration of
the list, and the final (passing) iteration is never counted. -/
def addSum : Nat → List Nat → Nat
  | _, [] => 0
  | _, [_] => 0
  | prev, c :: rest => (prev - c) + addSum c rest

/-! ### concrete fixtures used by the witnesses -/

/-- A transport failing transiently on attempts 0 and 1, succeeding on 2. -/
def trTwice : Nat → TransportResult :=
  fun k => if k < 2 then .connectError else .success 7

/-- A transport failing transiently on every attempt up to 2. -/
def trAlways : Nat → TransportResult :=
  fun k => if k = 0 then .httpError 429 else if k = 1 then .readTimeout else .connectError

/-- A council client returning a fixed response. -/
def clientOf (r : Response) : CouncilClient := ⟨fun _ _ => r⟩

/-- A successful response fixture. -/
def respA : Response := { provider := "openai", model := "m1", content := "alpha" }

/-- A failing response fixture (client 2 of the witness council). -/
def respErr : Response :=
  { provider := "anthropic", model := "m2", content := "", error := some "boom" }

/-- Another successful response fixture. -/
def respB : Response := { provider := "anthropic", model := "m2", content := "beta" }

/-- A third successful response fixture. -/
def respC : Response := { provider := "google", model := "m3", content := "gamma" }

/-- A dummy finding for the run witnesses. -/
def dummyIssue : SonarIssue :=
  { rule := "python:S1481", severity := "MAJOR", message := "m", file := "app.py", line := 1 }

/-- Finding counts 10, 6, 6, 0 for iterations 1 to 4. -/
def c4counts : Nat → Nat
  | 1 => 10
  | 2 => 6
  | 3 => 6
  | _ => 0

/-- An oracle realizing finding counts 10, 6, 6, 0 with passing linters. -/
def c4oracle : Nat → IterationResult := fun j =>
  { iteration := j, linter_results := [],
    sonar_report := some ⟨"proj", List.replicate (c4counts j) dummyIssue⟩,
    fixes_applied := false, error := none }

/-- A status oracle: PENDING for three polls, then SUCCESS. -/
def stPending3 : Nat → String := fun k => if k < 3 then "PENDING" else "SUCCESS"

/-- A status oracle that reports FAILED at once. -/
def stFailed : Nat → String := fun _ => "FAILED"

/-- File system fixture for the fix witness. -/
def fsFix : String → Option String := fun p => if p = "app.py" then some "x = 1" else none

/-- Fix response fixture carrying a fenced block that differs from the file. -/
def fixResp : Response :=
  { provider := "openai", model := "m", content := "```python\nx = 2\n```" }

/-- Fix response fixture whose fenced block is a single empty line: the
extracted content is the empty string, which differs from the file but is
falsy, so the source applies no fix. -/
def emptyBlockResp : Response :=
  { provider := "openai", model := "m", content := "```python\n\n```" }

/-- An oracle whose first iteration has a raising scan that stringifies to
the empty string together with a failing linter, and whose later iterations
carry a truthy scan error. -/
def c7badOracle : Nat → IterationResult := fun j =>
  if j = 1 then run_iteration 1 [⟨"ruff", false, "bad", 0⟩] (.error "") false
  else run_iteration j [⟨"ruff", false, "bad", 0⟩] (.error "later failure") false

/-! ## Theorems -/

/-- Claim C2: dispatching to the council returns one result slot per client,
in input order, each slot being exactly that client's CompletionResult;
position i depends only on client i (so no other client's failure can affect
it, and no failure surfaces as an aggregate exception); zero clients yield
the empty list immediately. -/
theorem c2_query_council :
    (∀ (ps : List CouncilClient) (m : List Msg) (s : String),
        query_council ps m s = ps.map fun p => p.complete m s)
    ∧ (∀ (ps : List CouncilClient) (m : List Msg) (s : String),
        (query_council ps m s).length = ps.length)
    ∧ (∀ (m : List Msg) (s : String), query_council [] m s = [])
    ∧ (∀ (ps qs : List CouncilClient) (m : List Msg) (s : String) (i : Nat),
        ps.get? i = qs.get? i →
        (query_council ps m s).get? i = (query_council qs m s).get? i) := by
  have hmap : ∀ (ps : List CouncilClient) (m : List Msg) (s : String),
      query_council ps m s = ps.map fun p => p.complete m s := by
    intro ps m s
    induction ps with
    | nil => rfl
    | cons p ps ih => simp [query_council, ih]
  refine ⟨hmap, ?_, ?_, ?_⟩
  · intro ps m s; rw [hmap]; simp
  · intro m s; rfl
  · intro ps qs m s i h
    rw [hmap, hmap, List.get?_map, List.get?_map, h]

/-- Witness for C2 at the spec example shape: with three clients where the
second always fails, the result in slot 2 is the same as with a council whose
second client succeeds. -/
theorem c2_witness :
    (query_council [clientOf respA, clientOf respErr, clientOf respC] [] "").get? 2 =
      (query_council [clientOf respA, clientOf respB, clientOf respC] [] "").get? 2 :=
  c2_query_council.2.2.2 _ _ [] "" 2 rfl

/-- Claim C3: every CompletionResult produced by any of the four provider
complete methods satisfies error == None iff content is nonempty. -/
theorem c3_response_invariant :
    (∀ (md : String) (o : ReqOutcome),
        (openai_complete md o).error = none ↔ (openai_complete md o).content ≠ "")
    ∧ (∀ (md : String) (o : ReqOutcome),
        (anthropic_complete md o).error = none ↔ (anthropic_complete md o).content ≠ "")
    ∧ (∀ (md : String) (o : ReqOutcome),
        (ollama_complete md o).error = none ↔ (ollama_complete md o).content ≠ "")
    ∧ (∀ (md : String) (o : GoogleOutcome),
        (google_complete md o).error = none ↔ (google_complete md o).content ≠ "") := by
  refine ⟨?_, ?_, ?_, ?_⟩
  · intro md o
    cases o with
    | failure e => simp [openai_complete]
    | success c u => by_cases hc : c = "" <;> simp [openai_complete, hc]
  · intro md o
    cases o with
    | failure e => simp [anthropic_complete]
    | success c u => by_cases hc : c = "" <;> simp [anthropic_complete, hc]
  · intro md o
    cases o with
    | failure e => simp [ollama_complete]
    | success c u => by_cases hc : c = "" <;> simp [ollama_complete, hc]
  · intro md o
    cases o with
    | failure e => simp [google_complete]
    | success c fr u =>
      by_cases hc : c = ""
      · cases fr with
        | none => simp [google_complete, hc]
        | some r =>
          by_cases hr : r ≠ "" ∧ r ≠ "STOP" <;> simp [google_complete, hc, hr]
      · simp [google_complete, hc]

/-- One non-terminal poll advances the loop by one status check. -/
theorem waitAux_step (status : Nat → String) (timeout pollInterval fuel k : Nat)
    (h : k * pollInterval < timeout) (h1 : status k ≠ "SUCCESS")
    (h2 : status k ≠ "FAILED") (h3 : status k ≠ "CANCELED") :
    waitAux status timeout pollInterval (fuel + 1) k =
      waitAux status timeout pollInterval fuel (k + 1) := by
  simp [waitAux, h, h1, h2, h3]

/-- A SUCCESS status inside the deadline ends the polling loop. -/
theorem waitAux_success (status : Nat → String) (timeout pollInterval fuel k : Nat)
    (h : k * pollInterval < timeout) (hs : status k = "SUCCESS") :
    waitAux status timeout pollInterval (fuel + 1) k = .succeeded (k + 1) := by
  simp [waitAux, h, hs]

/-- A status oracle that never reaches a terminal state only ever times out. -/
theorem waitAux_timeout (status : Nat → String) (timeout pollInterval : Nat)
    (h : ∀ k, status k ≠ "SUCCESS" ∧ status k ≠ "FAILED" ∧ status k ≠ "CANCELED") :
    ∀ fuel k, ∃ n, waitAux status timeout pollInterval fuel k = .timedOut n := by
  intro fuel
  induction fuel with
  | zero => intro k; exact ⟨k, rfl⟩
  | succ f ih =>
    intro k
    by_cases hk : k * pollInterval < timeout
    · obtain ⟨n, hn⟩ := ih (k + 1)
      exact ⟨n, by rw [waitAux_step status timeout pollInterval f k hk (h k).1 (h k).2.1
        (h k).2.2]; exact hn⟩
    · exact ⟨k, by simp [waitAux, hk]⟩

/-- Claim C5: polling returns normally on SUCCESS, raises immediately on
FAILED or CANCELED, raises a timeout when the wall clock budget is exceeded,
and keeps polling on any other status; a task reporting PENDING for three
polls and then SUCCESS makes polling return after exactly four status
checks. -/
theorem c5_wait_for_task :
    (∀ (status : Nat → String) (timeout pollInterval : Nat),
        1 ≤ pollInterval → (∀ k, k < 3 → status k = "PENDING") → status 3 = "SUCCESS" →
        3 * pollInterval < timeout →
        wait_for_task status timeout pollInterval = .succeeded 4)
    ∧ (∀ (status : Nat → String) (timeout pollInterval : Nat),
        0 < timeout → (status 0 = "FAILED" ∨ status 0 = "CANCELED") →
        wait_for_task status timeout pollInterval = .failed (status 0) 1)
    ∧ (∀ (status : Nat → String) (timeout pollInterval : Nat),
        (∀ k, status k ≠ "SUCCESS" ∧ status k ≠ "FAILED" ∧ status k ≠ "CANCELED") →
        ∃ n, wait_for_task status timeout pollInterval = .timedOut n) := by
  refine ⟨?_, ?_, ?_⟩
  · intro status timeout pollInterval hpi hpend hsucc hlt
    have h4 : 4 ≤ timeout := by omega
    have hp0 := hpend 0 (by omega)
    have hp1 := hpend 1 (by omega)
    have hp2 := hpend 2 (by omega)
    obtain ⟨f, hf⟩ : ∃ f, timeout + 1 = f + 4 := ⟨timeout - 3, by omega⟩
    rw [wait_for_task, hf]
    rw [show f + 4 = (f + 3) + 1 by omega,
      waitAux_step status timeout pollInterval (f + 3) 0 (by omega)
        (by rw [hp0]; decide) (by rw [hp0]; decide) (by rw [hp0]; decide)]
    rw [show f + 3 = (f + 2) + 1 by omega,
      waitAux_step status timeout pollInterval (f + 2) 1 (by omega)
        (by rw [hp1]; decide) (by rw [hp1]; decide) (by rw [hp1]; decide)]
    rw [show f + 2 = (f + 1) + 1 by omega,
      waitAux_step status timeout pollInterval (f + 1) 2 (by omega)
        (by rw [hp2]; decide) (by rw [hp2]; decide) (by rw [hp2]; decide)]
    exact waitAux_success status timeout pollInterval f 3 hlt hsucc
  · intro status timeout pollInterval hpos hs
    have h0 : 0 * pollInterval < timeout := by omega
    rcases hs with h | h <;>
      simp [wait_for_task, waitAux, h0, h] <;> omega
  · intro status timeout pollInterval h
    exact waitAux_timeout status timeout pollInterval h (timeout + 1) 0

/-- Witness for C5: the PENDING-three-times fixture returns after exactly
four checks, and the always-FAILED fixture raises after one. -/
theorem c5_witness :
    wait_for_task stPending3 100 2 = .succeeded 4 ∧
      wait_for_task stFailed 100 2 = .failed (stFailed 0) 1 :=
  ⟨c5_wait_for_task.1 stPending3 100 2 (by decide) (by decide) (by decide) (by decide),
   c5_wait_for_task.2.1 stFailed 100 2 (by decide) (by decide)⟩

/-- Shifting the head delay into the backoff schedule. -/
theorem backoff_shift (a left : Nat) :
    ((2 : ℚ) ^ a + 1 / 2) ::
        ((List.range left).map fun k => (2 : ℚ) ^ (a + 1 + k) + 1 / 2) =
      (List.range (left + 1)).map fun k => (2 : ℚ) ^ (a + k) + 1 / 2 := by
  rw [List.range_succ_eq_map, List.map_cons, List.map_map]
  simp only [List.cons.injEq, Nat.add_zero]
  refine ⟨trivial, ?_⟩
  refine List.map_congr_left ?_
  intro k _
  simp only [Function.comp]
  rw [show a + Nat.succ k = a + 1 + k by omega]

/-- The retry loop on an all-transient run that succeeds on the last allowed
attempt: it returns the success, with one attempt per allowed try and the
exponential backoff schedule. -/
theorem retryAux_success (tr : Nat → TransportResult) (n : Nat) :
    ∀ (left a : Nat), (∀ k, a ≤ k → k < a + left → ClaimRetryable (tr k)) →
      tr (a + left) = .success n →
      retryAux tr a left =
        ⟨.ok n, left + 1, (List.range left).map fun k => (2 : ℚ) ^ (a + k) + 1 / 2⟩ := by
  intro left
  induction left with
  | zero =>
    intro a _ hs
    simp only [Nat.add_zero] at hs
    simp [retryAux, hs]
  | succ left ih =>
    intro a hr hs
    have hra : ClaimRetryable (tr a) := hr a le_rfl (by omega)
    have ihx := ih (a + 1) (fun k hk1 hk2 => hr k (by omega) (by omega))
      (by rw [show a + 1 + left = a + (left + 1) by omega]; exact hs)
    rcases hra with h | h | h <;>
      simp only [retryAux, h, ihx] <;>
      rw [backoff_shift]
    norm_num

/-- The retry loop on an all-transient run that never succeeds: it surfaces
the error of the last attempt after the full backoff schedule. -/
theorem retryAux_exhaust (tr : Nat → TransportResult) :
    ∀ (left a : Nat), (∀ k, a ≤ k → k ≤ a + left → ClaimRetryable (tr k)) →
      retryAux tr a left =
        ⟨.error (tr (a + left)), left + 1,
          (List.range left).map fun k => (2 : ℚ) ^ (a + k) + 1 / 2⟩ := by
  intro left
  induction left with
  | zero =>
    intro a hr
    have hra : ClaimRetryable (tr a) := hr a le_rfl (by omega)
    rcases hra with h | h | h <;> simp [retryAux, h, Nat.add_zero]
  | succ left ih =>
    intro a hr
    have hra : ClaimRetryable (tr a) := hr a le_rfl (by omega)
    have ihx := ih (a + 1) (fun k hk1 hk2 => hr k (by omega) (by omega))
    have hidx : a + 1 + left = a + (left + 1) := by omega
    rcases hra with h | h | h <;>
      simp only [retryAux, h, ihx, hidx] <;>
      rw [backoff_shift]
    norm_num

/-- Claim C1: when the transport fails with a retryable error (HTTP 429,
connection failure or read timeout) on exactly the first maxRetries attempts
and then succeeds, the request returns the successful response with exactly
maxRetries + 1 attempts and exactly maxRetries backoff delays, the k-th delay
(0-indexed, slept before the k-th retry) being 2 ^ k + 0.5 seconds; when all
maxRetries + 1 attempts fail with retryable errors, the last error is
surfaced after the same schedule. -/
theorem c1_retry_backoff :
    (∀ (maxRetries n : Nat) (tr : Nat → TransportResult),
        (∀ k, k < maxRetries → ClaimRetryable (tr k)) → tr maxRetries = .success n →
        request_with_retry tr maxRetries =
          ⟨.ok n, maxRetries + 1, backoffDelays maxRetries⟩)
    ∧ (∀ (maxRetries : Nat) (tr : Nat → TransportResult),
        (∀ k, k ≤ maxRetries → ClaimRetryable (tr k)) →
        request_with_retry tr maxRetries =
          ⟨.error (tr maxRetries), maxRetries + 1, backoffDelays maxRetries⟩) := by
  constructor
  · intro m n tr hr hs
    have h := retryAux_success tr n m 0 (fun k _ hk2 => hr k (by omega))
      (by simpa using hs)
    rw [request_with_retry, h]
    simp [backoffDelays]
  · intro m tr hr
    have h := retryAux_exhaust tr m 0 (fun k _ hk2 => hr k (by omega))
    rw [request_with_retry, h]
    simp [backoffDelays]

/-- Witness for C1: a transport failing twice then succeeding under
maxRetries = 2, and a transport failing on all three attempts. -/
theorem c1_witness :
    request_with_retry trTwice 2 = ⟨.ok 7, 2 + 1, backoffDelays 2⟩ ∧
      request_with_retry trAlways 2 = ⟨.error (trAlways 2), 2 + 1, backoffDelays 2⟩ :=
  ⟨c1_retry_backoff.1 2 7 trTwice (by decide) rfl,
   c1_retry_backoff.2 2 trAlways (by decide)⟩

/-- Claim C6 counterexample: a successful fix response whose fenced code
block is one empty line extracts to the empty string, which differs from the
original file content, yet the `not fixed_content` guard of _fix_single_file
applies no fix: the file keeps its content and no backup is created, so the
claimed if-and-only-if fails in its only-if-not direction. -/
theorem c6_counterexample :
    emptyBlockResp.error = none ∧
      extract_code_from_response emptyBlockResp.content.toList = some [] ∧
      ([] : List Char) ≠ "x = 1".toList ∧
      (fix_single_file fsFix "app.py" emptyBlockResp).1 = false ∧
      (fix_single_file fsFix "app.py" emptyBlockResp).2 = fsFix :=
  ⟨rfl, by decide, by decide, by decide, rfl⟩

/-- Claim C6 as amended: a per-file fix overwrites the target (and creates
the backup file, named original plus the fixed .bak suffix and holding the
original content) exactly when the fix response is successful and contains a
fenced code block whose content is non-empty and differs from the original;
otherwise, in particular when no fenced block is present, the block is empty
or the block is byte-identical, the file system is left completely
unchanged.  Paths other than the target and its backup are never touched. -/
theorem c6_fix_single_file (fs : String → Option String) (filePath : String)
    (resp : Response) (original : String) (hfs : fs filePath = some original) :
    ((fix_single_file fs filePath resp).1 = true ↔
        resp.error = none ∧
          ∃ c, extract_code_from_response resp.content.toList = some c ∧
            c ≠ [] ∧ c ≠ original.toList)
    ∧ ((fix_single_file fs filePath resp).1 = true →
        (fix_single_file fs filePath resp).2 filePath =
            (extract_code_from_response resp.content.toList).map List.asString ∧
          (fix_single_file fs filePath resp).2 (filePath ++ ".bak") = some original)
    ∧ ((fix_single_file fs filePath resp).1 = false →
        ∀ p, (fix_single_file fs filePath resp).2 p = fs p)
    ∧ (∀ p, p ≠ filePath → p ≠ filePath ++ ".bak" →
        (fix_single_file fs filePath resp).2 p = fs p) := by
  have hbak : filePath ++ ".bak" ≠ filePath := by
    intro h
    have hlen := congrArg String.length h
    rw [String.length_append, show (".bak" : String).length = 4 from rfl] at hlen
    omega
  by_cases h1 : resp.error.isSome = true ∨ resp.content = ""
  · have hfix : fix_single_file fs filePath resp = (false, fs) := by
      simp [fix_single_file, hfs, h1]
    refine ⟨?_, ?_, ?_, ?_⟩
    · rw [hfix]
      refine iff_of_false (by simp) ?_
      rintro ⟨he, c, hc, hcne, hcneo⟩
      rcases h1 with h | h
      · rw [he] at h; simp at h
      · rw [h] at hc
        have hnil : extract_code_from_response "".toList = none := rfl
        rw [hnil] at hc
        exact Option.noConfusion hc
    · rw [hfix]; intro h; simp at h
    · rw [hfix]; intro _ p; rfl
    · rw [hfix]; intro p _ _; rfl
  · have he : resp.error = none := by
      cases hE : resp.error with
      | none => rfl
      | some e => exact absurd (Or.inl (by rw [hE]; rfl)) h1
    have hc2 : resp.content ≠ "" := fun hc => h1 (Or.inr hc)
    cases hX : extract_code_from_response resp.content.toList with
    | none =>
      have hX2 : extract_code_from_response resp.content.data = none := hX
      have hfix : fix_single_file fs filePath resp = (false, fs) := by
        simp [fix_single_file, hfs, h1, hX2]
      refine ⟨?_, ?_, ?_, ?_⟩
      · rw [hfix]
        refine iff_of_false (by simp) ?_
        rintro ⟨_, c, hc, -, -⟩
        exact Option.noConfusion hc
      · rw [hfix]; intro h; simp at h
      · rw [hfix]; intro _ p; rfl
      · rw [hfix]; intro p _ _; rfl
    | some fixedL =>
      by_cases hguard : fixedL = [] ∨ fixedL = original.toList
      · have hX2 : extract_code_from_response resp.content.data = some fixedL := hX
        have hguard2 : fixedL = [] ∨ fixedL = original.data := hguard
        have hfix : fix_single_file fs filePath resp = (false, fs) := by
          simp [fix_single_file, hfs, h1, hX2, hguard2]
        refine ⟨?_, ?_, ?_, ?_⟩
        · rw [hfix]
          refine iff_of_false (by simp) ?_
          rintro ⟨_, c, hc, hcne, hcneo⟩
          cases hc
          rcases hguard with h | h
          · exact hcne h
          · exact hcneo h
        · rw [hfix]; intro h; simp at h
        · rw [hfix]; intro _ p; rfl
        · rw [hfix]; intro p _ _; rfl
      · have hX2 : extract_code_from_response resp.content.data = some fixedL := hX
        have hguard2 : ¬(fixedL = [] ∨ fixedL = original.data) := hguard
        have hfix : fix_single_file fs filePath resp =
            (true, fun p =>
              if p = filePath then some fixedL.asString
              else if p = filePath ++ ".bak" then some original
              else fs p) := by
          simp [fix_single_file, hfs, h1, hX2, hguard2]
        refine ⟨?_, ?_, ?_, ?_⟩
        · rw [hfix]
          exact iff_of_true rfl
            ⟨he, fixedL, rfl, fun h => hguard (Or.inl h), fun h => hguard (Or.inr h)⟩
        · rw [hfix]
          intro _
          constructor
          · simp
          · simp [hbak]
        · rw [hfix]; intro h; simp at h
        · intro p hp1 hp2
          rw [hfix]
          simp [hp1, hp2]

/-- Witness for C6: a concrete file system and a successful response whose
fenced block differs from the file; the fix is applied and the backup holds
the original. -/
theorem c6_witness :
    (fix_single_file fsFix "app.py" fixResp).1 = true ∧
      (fix_single_file fsFix "app.py" fixResp).2 "app.py.bak" = some "x = 1" := by
  have h := c6_fix_single_file fsFix "app.py" fixResp "x = 1" rfl
  have h1 : (fix_single_file fsFix "app.py" fixResp).1 = true :=
    h.1.mpr ⟨rfl, "x = 2".toList, by decide, by decide, by decide⟩
  have h2 := (h.2.1 h1).2
  exact ⟨h1, by rw [show "app.py.bak" = "app.py" ++ ".bak" from rfl]; exact h2⟩

/-- A passing iteration stops the loop with final_passed true and without
touching the running total. -/
theorem runAux_stop_pass (oracle : Nat → IterationResult) (i b : Nat)
    (acc : List IterationResult) (total : Nat) (hp : (oracle i).passed = true) :
    runAux oracle i (b + 1) acc total = ⟨(oracle i :: acc).reverse, true, total⟩ := by
  simp [runAux, hp]

/-- A non-passing iteration with a truthy (non-None, non-empty) error string
stops the loop with final_passed false and without touching the running
total. -/
theorem runAux_stop_error (oracle : Nat → IterationResult) (i b : Nat)
    (acc : List IterationResult) (total : Nat) (hp : (oracle i).passed = false)
    (he : truthyStr (oracle i).error = true) :
    runAux oracle i (b + 1) acc total = ⟨(oracle i :: acc).reverse, false, total⟩ := by
  simp [runAux, hp, he]

/-- A non-passing, non-erroring iteration advances the loop, adding
max(0, previous - current) when it carries a report. -/
theorem runAux_advance (oracle : Nat → IterationResult) (i b : Nat)
    (acc : List IterationResult) (total : Nat)
    (hp : (oracle i).passed = false) (he : (oracle i).error = none) :
    runAux oracle i (b + 1) acc total =
      runAux oracle (i + 1) b (oracle i :: acc)
        (match (oracle i).sonar_report with
         | none => total
         | some rep => total + (prevCount acc - rep.issues.length)) := by
  simp [runAux, truthyStr, hp, he]

/-- Running through a block of non-passing, error-free iterations records
them in order and lands the loop on the iteration after the block. -/
theorem runAux_reach (oracle : Nat → IterationResult) :
    ∀ (steps i b : Nat) (acc : List IterationResult) (total : Nat),
      steps ≤ b →
      (∀ j, i ≤ j → j < i + steps →
        (oracle j).passed = false ∧ (oracle j).error = none) →
      ∃ total', runAux oracle i b acc total =
        runAux oracle (i + steps) (b - steps)
          (((List.range steps).map fun j => oracle (i + j)).reverse ++ acc) total' := by
  intro steps
  induction steps with
  | zero =>
    intro i b acc total _ _
    exact ⟨total, by simp⟩
  | succ s ih =>
    intro i b acc total hb hj
    obtain ⟨b', rfl⟩ : ∃ b', b = b' + 1 := ⟨b - 1, by omega⟩
    have h0 := hj i le_rfl (by omega)
    rw [runAux_advance oracle i b' acc total h0.1 h0.2]
    obtain ⟨t', ht'⟩ := ih (i + 1) b' (oracle i :: acc) _ (by omega)
      (fun j hj1 hj2 => hj j (by omega) (by omega))
    refine ⟨t', ht'.trans ?_⟩
    have hidx : i + 1 + s = i + (s + 1) := by omega
    have hbud : b' - s = b' + 1 - (s + 1) := by omega
    have hacc : ((List.range s).map fun j => oracle (i + 1 + j)).reverse ++
        (oracle i :: acc) =
        ((List.range (s + 1)).map fun j => oracle (i + j)).reverse ++ acc := by
      rw [List.range_succ_eq_map, List.map_cons, List.map_map, List.reverse_cons]
      rw [List.append_assoc]
      simp only [Nat.add_zero, List.singleton_append]
      congr 1
      refine congrArg _ (List.map_congr_left ?_)
      intro k _
      simp only [Function.comp]
      rw [show i + Nat.succ k = i + 1 + k by omega]
    rw [hidx, hbud, hacc]

/-- The total accounting of a run segment whose finding counts are cs, with
all linters passing, no errors, and only the last count zero: the loop
records one iteration per count, passes on the last, and adds
max(0, previous - current) for every non-terminal count. -/
theorem runAux_counts (oracle : Nat → IterationResult) :
    ∀ (cs : List Nat) (i b : Nat) (acc : List IterationResult) (total : Nat),
      cs.length ≤ b →
      (∀ j, j < cs.length →
        ((oracle (i + j)).linter_results.all fun r => r.passed) = true ∧
          (oracle (i + j)).error = none ∧
          ∃ rep, (oracle (i + j)).sonar_report = some rep ∧
            rep.issues.length = cs.getD j 0) →
      (∀ j, j < cs.length - 1 → cs.getD j 0 ≠ 0) →
      cs.getLast? = some 0 →
      (runAux oracle i b acc total).total_issues_fixed =
          total + addSum (prevCount acc) cs ∧
        (runAux oracle i b acc total).final_passed = true ∧
        (runAux oracle i b acc total).iterations.length = acc.length + cs.length := by
  intro cs
  induction cs with
  | nil => intro i b acc total _ _ _ hlast; exact absurd hlast (by simp)
  | cons c rest ih =>
    intro i b acc total hb hshape hnz hlast
    obtain ⟨b', rfl⟩ : ∃ b', b = b' + 1 := ⟨b - 1, by simp at hb; omega⟩
    obtain ⟨rep0, hrep0, hlen0⟩ := (hshape 0 (by simp)).2.2
    have hlin0 := (hshape 0 (by simp)).1
    have herr0 := (hshape 0 (by simp)).2.1
    simp only [Nat.add_zero, List.getD_cons_zero] at hrep0 hlen0 hlin0 herr0
    cases rest with
    | nil =>
      have hc0 : c = 0 := by simpa using hlast
      have hpass : (oracle i).passed = true := by
        have hempty : rep0.issues = [] := by
          rw [← List.length_eq_zero]
          simpa [hc0] using hlen0
        simp [IterationResult.passed, hlin0, hrep0, SonarReport.passed, hempty]
      rw [runAux_stop_pass oracle i b' acc total hpass]
      refine ⟨?_, rfl, by simp⟩
      simp [hc0, addSum]
    | cons c' t =>
      have hc : c ≠ 0 := by
        have := hnz 0 (by simp)
        simpa using this
      have hpass : (oracle i).passed = false := by
        have hne : rep0.issues ≠ [] := by
          intro h
          exact hc (by simpa [h] using hlen0.symm)
        simp [IterationResult.passed, hrep0, SonarReport.passed,
          List.isEmpty_iff, hne]
      rw [runAux_advance oracle i b' acc total hpass herr0]
      rw [hrep0]
      have ihx := ih (i + 1) b' (oracle i :: acc)
        (total + (prevCount acc - rep0.issues.length)) (by simpa using hb)
        (fun j hj => by
          have := hshape (j + 1) (by simpa using Nat.succ_lt_succ hj)
          rw [show i + (j + 1) = i + 1 + j by omega] at this
          simpa using this)
        (fun j hj => by
          have := hnz (j + 1) (by simp at hj ⊢; omega)
          simpa using this)
        (by simpa using hlast)
      have hprev : prevCount (oracle i :: acc) = c := by
        simp [prevCount, hrep0, hlen0]
      rw [hprev] at ihx
      refine ⟨?_, ihx.2.1, ?_⟩
      · rw [ihx.1, hlen0]
        show total + (prevCount acc - c) + addSum c (c' :: t) =
          total + addSum (prevCount acc) (c :: c' :: t)
        rw [show addSum (prevCount acc) (c :: c' :: t) =
            (prevCount acc - c) + addSum c (c' :: t) from rfl]
        omega
      · rw [ihx.2.2]
        simp
        omega

/-- Claim C4: over a run whose per-iteration finding counts are cs (linters
passing, no errors, only the terminal count zero so that only the terminal
iteration passes), total_issues_fixed accumulates max(0, previous - current)
for each non-terminal iteration that has a previous iteration with a scan
report -- a regression contributes zero via the truncated subtraction and the
terminal passing iteration is never counted (addSum stops before the last
count); in particular counts [10, 6, 6, 0] yield 4. -/
theorem c4_total_issues_fixed (oracle : Nat → IterationResult) (cs : List Nat)
    (maxIter : Nat) (hlen : cs.length ≤ maxIter)
    (hshape : ∀ j, j < cs.length →
      ((oracle (1 + j)).linter_results.all fun r => r.passed) = true ∧
        (oracle (1 + j)).error = none ∧
        ∃ rep, (oracle (1 + j)).sonar_report = some rep ∧
          rep.issues.length = cs.getD j 0)
    (hnz : ∀ j, j < cs.length - 1 → cs.getD j 0 ≠ 0)
    (hlast : cs.getLast? = some 0) :
    (FeedbackLoop.run oracle maxIter).total_issues_fixed = addSum 0 cs ∧
      (FeedbackLoop.run oracle maxIter).final_passed = true ∧
      (FeedbackLoop.run oracle maxIter).iterations.length = cs.length := by
  have h := runAux_counts oracle cs 1 maxIter [] 0 hlen hshape hnz hlast
  rw [FeedbackLoop.run]
  refine ⟨?_, h.2.1, ?_⟩
  · rw [h.1]; simp [prevCount]
  · rw [h.2.2]; simp

/-- Witness for C4: the concrete oracle with finding counts 10, 6, 6, 0
yields total_issues_fixed 4, passing on iteration 4 of 5. -/
theorem c4_witness :
    (FeedbackLoop.run c4oracle 5).total_issues_fixed = 4 ∧
      (FeedbackLoop.run c4oracle 5).final_passed = true ∧
      (FeedbackLoop.run c4oracle 5).iterations.length = 4 := by
  have h := c4_total_issues_fixed c4oracle [10, 6, 6, 0] 5 (by decide)
    (by
      intro j hj
      have hj4 : j < 4 := by simpa using hj
      interval_cases j <;>
        exact ⟨rfl, rfl, ⟨_, rfl, by decide⟩⟩)
    (by intro j hj
        have hj3 : j < 3 := by simpa using hj
        interval_cases j <;> decide)
    (by decide)
  exact ⟨h.1.trans (by decide), h.2.1, h.2.2⟩

/-- run_iteration on a raising scan records the exception in the error
field and keeps the report absent. -/
theorem run_iteration_scan_error (i : Nat) (linters : List LinterResult)
    (e : String) (fx : Bool) :
    (run_iteration i linters (.error e) fx).error = some e ∧
      (run_iteration i linters (.error e) fx).sonar_report = none := by
  exact ⟨rfl, rfl⟩

/-- Claim C7 counterexample: a scan exception whose string rendering is
empty during iteration 1, with a failing linter, is captured into the error
field, but the empty string is falsy in the loop's error check, so the loop
starts iteration 2 instead of terminating at iteration 1: two iterations are
recorded, refuting the claim as stated at i = 1. -/
theorem c7_counterexample :
    (c7badOracle 1).error = some "" ∧
      (c7badOracle 1).sonar_report = none ∧
      (c7badOracle 1).passed = false ∧
      (FeedbackLoop.run c7badOracle 5).iterations.length = 2 :=
  ⟨rfl, rfl, by decide, by decide⟩

/-- Claim C7 as amended: if scan_and_wait raises during iteration i, the
exception text is captured by _run_iteration into the error field; when that
text is non-empty (truthy in the loop's error check) and the loop reaches
iteration i, the loop terminates at iteration i: exactly i iterations are
recorded, the last one is iteration i, and its error field holds the
exception text.  (An exception rendering to the empty string is still
captured but is falsy, so the loop can continue -- see the
counterexample.) -/
theorem c7_scan_error_halts (oracle : Nat → IterationResult) (maxIter i : Nat)
    (linters : List LinterResult) (e : String) (fx : Bool)
    (h1 : 1 ≤ i) (h2 : i ≤ maxIter) (hne : e ≠ "")
    (horacle : oracle i = run_iteration i linters (.error e) fx)
    (hpre : ∀ j, 1 ≤ j → j < i →
      (oracle j).passed = false ∧ (oracle j).error = none) :
    (FeedbackLoop.run oracle maxIter).iterations.length = i ∧
      (FeedbackLoop.run oracle maxIter).iterations.getLast? = some (oracle i) ∧
      (oracle i).error = some e := by
  have herr : (oracle i).error = some e := by rw [horacle]; rfl
  obtain ⟨t', ht'⟩ := runAux_reach oracle (i - 1) 1 maxIter [] 0 (by omega)
    (fun j hj1 hj2 => hpre j hj1 (by omega))
  rw [show 1 + (i - 1) = i by omega] at ht'
  obtain ⟨b', hb'⟩ : ∃ b', maxIter - (i - 1) = b' + 1 := ⟨maxIter - i, by omega⟩
  rw [hb'] at ht'
  have hfin : ∀ rest : FeedbackLoopResult,
      rest = FeedbackLoop.run oracle maxIter →
      rest.iterations =
        ((List.range (i - 1)).map fun j => oracle (1 + j)) ++ [oracle i] →
      (FeedbackLoop.run oracle maxIter).iterations.length = i ∧
        (FeedbackLoop.run oracle maxIter).iterations.getLast? = some (oracle i) ∧
        (oracle i).error = some e := by
    intro rest hrest hits
    rw [← hrest]
    refine ⟨?_, ?_, herr⟩
    · rw [hits]; simp; omega
    · rw [hits, List.getLast?_append]
      rfl
  cases hpass : (oracle i).passed with
  | true =>
    refine hfin _ rfl ?_
    rw [FeedbackLoop.run, ht', runAux_stop_pass oracle i b' _ t' hpass]
    simp
  | false =>
    refine hfin _ rfl ?_
    rw [FeedbackLoop.run, ht',
      runAux_stop_error oracle i b' _ t' hpass (by rw [herr]; simp [truthyStr, hne])]
    simp

/-- Witness oracle for C7: iteration 1 fails linters cleanly, iteration 2
has a raising scan. -/
theorem c7_witness :
    (FeedbackLoop.run
        (fun j => if j = 2 then run_iteration 2 [] (.error "scanner exploded") false
          else { iteration := j, linter_results := [⟨"ruff", false, "bad", 0⟩],
                 sonar_report := some ⟨"proj", [dummyIssue]⟩ })
        5).iterations.length = 2 ∧
      (FeedbackLoop.run
        (fun j => if j = 2 then run_iteration 2 [] (.error "scanner exploded") false
          else { iteration := j, linter_results := [⟨"ruff", false, "bad", 0⟩],
                 sonar_report := some ⟨"proj", [dummyIssue]⟩ })
        5).iterations.getLast? =
        some ((fun j => if j = 2 then run_iteration 2 [] (.error "scanner exploded") false
          else { iteration := j, linter_results := [⟨"ruff", false, "bad", 0⟩],
                 sonar_report := some ⟨"proj", [dummyIssue]⟩ }) 2) := by
  have h := c7_scan_error_halts
    (fun j => if j = 2 then run_iteration 2 [] (.error "scanner exploded") false
      else { iteration := j, linter_results := [⟨"ruff", false, "bad", 0⟩],
             sonar_report := some ⟨"proj", [dummyIssue]⟩ })
    5 2 [] "scanner exploded" false (by decide) (by decide) (by decide) (by decide)
    (by intro j hj1 hj2; interval_cases j; exact ⟨by decide, by decide⟩)
  exact ⟨h.1, h.2.1⟩

/-- Claim C10: an iteration whose linter results all passed (vacuously so
for the empty list) and whose scan raised (no report, error set) satisfies
the passed predicate, and a loop reaching such an iteration stops there
recording final_passed = true even though the error field is non-null. -/
theorem c10_error_iteration_passes (oracle : Nat → IterationResult)
    (maxIter i : Nat) (it : IterationResult) (msg : String)
    (h1 : 1 ≤ i) (h2 : i ≤ maxIter) (hor : oracle i = it)
    (hlin : (it.linter_results.all fun r => r.passed) = true)
    (hrep : it.sonar_report = none) (herr : it.error = some msg)
    (hpre : ∀ j, 1 ≤ j → j < i →
      (oracle j).passed = false ∧ (oracle j).error = none) :
    it.passed = true ∧
      (FeedbackLoop.run oracle maxIter).final_passed = true ∧
      (FeedbackLoop.run oracle maxIter).iterations.length = i ∧
      (FeedbackLoop.run oracle maxIter).iterations.getLast? = some it ∧
      it.error ≠ none := by
  have hpass : it.passed = true := by
    simp [IterationResult.passed, hlin, hrep]
  obtain ⟨t', ht'⟩ := runAux_reach oracle (i - 1) 1 maxIter [] 0 (by omega)
    (fun j hj1 hj2 => hpre j hj1 (by omega))
  rw [show 1 + (i - 1) = i by omega] at ht'
  obtain ⟨b', hb'⟩ : ∃ b', maxIter - (i - 1) = b' + 1 := ⟨maxIter - i, by omega⟩
  rw [hb'] at ht'
  have hrun : FeedbackLoop.run oracle maxIter =
      ⟨((List.range (i - 1)).map fun j => oracle (1 + j)) ++ [it], true, t'⟩ := by
    rw [FeedbackLoop.run, ht', runAux_stop_pass oracle i b' _ t' (by rw [hor]; exact hpass)]
    simp [hor]
  refine ⟨hpass, ?_, ?_, ?_, by rw [herr]; simp⟩
  · rw [hrun]
  · rw [hrun]; simp; omega
  · rw [hrun]
    simp only [List.getLast?_append]
    rfl

/-- Witness for C10: a first iteration with no linter results and a raising
scan makes the loop stop at once with final_passed true. -/
theorem c10_witness :
    (FeedbackLoop.run (fun j => run_iteration j [] (.error "boom") false)
        5).final_passed = true ∧
      (FeedbackLoop.run (fun j => run_iteration j [] (.error "boom") false)
        5).iterations.length = 1 := by
  have h := c10_error_iteration_passes
    (fun j => run_iteration j [] (.error "boom") false) 5 1
    (run_iteration 1 [] (.error "boom") false) "boom"
    (by decide) (by decide) rfl (by decide) (by decide) (by decide)
    (by intro j hj1 hj2; omega)
  exact ⟨h.2.1, h.2.2.1⟩

/-- Reading a lower bound on the takeWhile length off the first n elements. -/
theorem le_length_takeWhile_iff (p : Char → Bool) :
    ∀ (l : List Char) (n : Nat),
      n ≤ (l.takeWhile p).length ↔ n ≤ l.length ∧ (l.take n).all p := by
  intro l
  induction l with
  | nil => intro n; simp
  | cons c t ih =>
    intro n
    cases n with
    | zero => simp
    | succ n =>
      by_cases hc : p c
      · rw [List.takeWhile_cons_of_pos hc]
        simp only [List.length_cons, Nat.succ_le_succ_iff, List.take_succ_cons,
          List.all_cons, hc, Bool.true_and]
        exact (ih n).trans (by simp)
      · rw [List.takeWhile_cons_of_neg hc]
        simp [hc]

/-- headLen is none exactly when there is no match evidence. -/
theorem headLen_eq_none_iff (P : Pat) (s : List Char) :
    headLen P s = none ↔ ¬ evidence P s := by
  unfold headLen evidence
  split_ifs with h1 h2
  · simp [h1, h2]
  · simp [h1, h2]
  · simp [h1]

/-- A some result of headLen decodes into the matched text: the prelude
followed by the maximal run, whose length bounds below by minLen. -/
theorem headLen_eq_some (P : Pat) (b : List Char) (n : Nat)
    (h : headLen P b = some n) :
    ∃ run, b.take n = P.pre ++ run ∧ run.all keyChar ∧ P.minLen ≤ run.length ∧
      n = P.pre.length + run.length ∧ evidence P b := by
  unfold headLen at h
  split_ifs at h with h1 h2
  case pos =>
    injection h with hn
    obtain ⟨rest, hrest⟩ : P.pre <+: b := by
      rw [← List.isPrefixOf_iff_prefix]; exact h1
    subst hn
    refine ⟨(b.drop P.pre.length).takeWhile keyChar, ?_, ?_, h2, rfl, ⟨h1, h2⟩⟩
    · have hdrop : b.drop P.pre.length = rest := by
        rw [← hrest, List.drop_left]
      rw [hdrop, ← hrest, List.take_append]
      congr 1
      exact (List.prefix_iff_eq_take.mp (List.takeWhile_prefix keyChar)).symm
    · exact List.all_takeWhile

/-- Match evidence only depends on the first preludeLength + minLen
characters. -/
theorem evidence_ext (P : Pat) (s t : List Char)
    (h : s.take (P.pre.length + P.minLen) = t.take (P.pre.length + P.minLen))
    (hev : evidence P s) : evidence P t := by
  obtain ⟨h1, h2⟩ := hev
  have hlen : min (P.pre.length + P.minLen) s.length =
      min (P.pre.length + P.minLen) t.length := by
    have := congrArg List.length h
    simpa using this
  have hpre : P.pre <+: s := by rw [← List.isPrefixOf_iff_prefix]; exact h1
  have hsl : P.pre.length ≤ s.length := hpre.length_le
  rw [le_length_takeWhile_iff] at h2
  obtain ⟨h2a, h2b⟩ := h2
  have hKs : P.pre.length + P.minLen ≤ s.length := by
    simp [List.length_drop] at h2a
    omega
  have hKt : P.pre.length + P.minLen ≤ t.length := by omega
  constructor
  · rw [List.isPrefixOf_iff_prefix, List.prefix_iff_eq_take]
    rw [List.prefix_iff_eq_take] at hpre
    calc P.pre = s.take P.pre.length := hpre
    _ = (s.take (P.pre.length + P.minLen)).take P.pre.length := by
        rw [List.take_take]
        congr 1
        omega
    _ = (t.take (P.pre.length + P.minLen)).take P.pre.length := by rw [h]
    _ = t.take P.pre.length := by
        rw [List.take_take]
        congr 1
        omega
  · rw [le_length_takeWhile_iff]
    refine ⟨by simp [List.length_drop]; omega, ?_⟩
    have hst : (s.drop P.pre.length).take P.minLen =
        (t.drop P.pre.length).take P.minLen := by
      have hs' : (s.drop P.pre.length).take P.minLen =
          (s.take (P.pre.length + P.minLen)).drop P.pre.length := by
        rw [List.drop_take]
        congr 1
        omega
      have ht' : (t.drop P.pre.length).take P.minLen =
          (t.take (P.pre.length + P.minLen)).drop P.pre.length := by
        rw [List.drop_take]
        congr 1
        omega
      rw [hs', ht', h]
    rw [← hst]
    exact h2b

/-- The whole match region of P-evidence at the head is star free. -/
theorem evidence_no_star (P : Pat) (b : List Char) (hev : evidence P b)
    (hstar : '*' ∉ P.pre) :
    ∀ idx, idx < P.pre.length + P.minLen → ∃ c, b.get? idx = some c ∧ c ≠ '*' := by
  obtain ⟨h1, h2⟩ := hev
  have hpre : P.pre <+: b := by rw [← List.isPrefixOf_iff_prefix]; exact h1
  rw [le_length_takeWhile_iff] at h2
  obtain ⟨h2a, h2b⟩ := h2
  have hKb : P.pre.length + P.minLen ≤ b.length := by
    simp [List.length_drop] at h2a
    have := hpre.length_le
    omega
  intro idx hidx
  by_cases hcase : idx < P.pre.length
  · have hb : b.get? idx = P.pre.get? idx := by
      rw [List.prefix_iff_eq_take] at hpre
      rw [hpre]
      rw [List.get?_take hcase]
    cases hg : P.pre.get? idx with
    | none =>
      rw [List.get?_eq_none] at hg
      omega
    | some c =>
      refine ⟨c, by rw [hb, hg], ?_⟩
      intro hc
      exact hstar (by rw [← hc]; exact List.get?_mem hg)
  · push_neg at hcase
    set j := idx - P.pre.length with hj
    have hjlt : j < P.minLen := by omega
    have hlen_take : ((b.drop P.pre.length).take P.minLen).length = P.minLen := by
      simp [List.length_take, List.length_drop]
      omega
    cases hg : ((b.drop P.pre.length).take P.minLen).get? j with
    | none =>
      rw [List.get?_eq_none] at hg
      omega
    | some c =>
      have hkey : keyChar c = true := by
        have hmem := List.get?_mem hg
        exact List.all_eq_true.mp h2b c hmem
      have hbg : b.get? idx = some c := by
        rw [List.get?_take hjlt] at hg
        rw [List.get?_drop] at hg
        rw [show P.pre.length + j = idx by omega] at hg
        exact hg
      refine ⟨c, hbg, ?_⟩
      intro hc
      rw [hc] at hkey
      exact absurd hkey (by decide)

/-- Unfolding subPat on the empty string. -/
theorem subPat_nil (Q : Pat) : subPat Q [] = [] := by
  rw [subPat]

/-- Unfolding subPat on a non-matching head. -/
theorem subPat_cons_none (Q : Pat) (c : Char) (rest : List Char)
    (h : headLen Q (c :: rest) = none) :
    subPat Q (c :: rest) = c :: subPat Q rest := by
  rw [subPat, h]

/-- Unfolding subPat on a matching head. -/
theorem subPat_cons_some (Q : Pat) (c : Char) (rest : List Char) (n : Nat)
    (h : headLen Q (c :: rest) = some n) :
    subPat Q (c :: rest) = Q.repl ++ subPat Q (rest.drop (n - 1)) := by
  rw [subPat, h]

/-- The decidable facts about the seven concrete sanitizer patterns used by
the redaction proof: non-empty star-free preludes of length at least 3, the
star-free leading part of each replacement is a prelude of the pattern
prelude, a star right after it, a star at the end, the marker inside every
replacement, and no match evidence of any pattern inside any replacement. -/
theorem sanitizePats_facts :
    (∀ P ∈ sanitizePats,
      P.pre ≠ [] ∧ '*' ∉ P.pre ∧ Lpart P <+: P.pre ∧
        P.repl.get? (Lpart P).length = some '*' ∧ P.repl.getLast? = some '*' ∧
        redactMarker <:+: P.repl) ∧
      (∀ Q ∈ sanitizePats, ∀ P ∈ sanitizePats, crossGood Q P) := by
  decide

/-- Prepending a replacement block to a string with no match evidence of P
keeps it free of match evidence of P: a match cannot live inside the
replacement (crossGood), cannot straddle its starred tail, and cannot start
inside it and extend beyond the final star. -/
theorem block_no_evid (Q P : Pat) (hPpre : P.pre ≠ []) (hPstar : '*' ∉ P.pre)
    (hQlast : Q.repl.getLast? = some '*') (hcross : crossGood Q P)
    (out : List Char) (hout : ∀ a b, out = a ++ b → ¬ evidence P b) :
    ∀ a b, Q.repl ++ out = a ++ b → ¬ evidence P b := by
  intro a b hsplit hev
  have hK1 : 1 ≤ P.pre.length := List.length_pos.mpr hPpre
  have hRne : Q.repl ≠ [] := by
    intro h
    rw [h] at hQlast
    exact Option.noConfusion hQlast
  have hRpos : 0 < Q.repl.length := List.length_pos.mpr hRne
  by_cases ha : Q.repl.length ≤ a.length
  · have hb : out = a.drop Q.repl.length ++ b := by
      have hd := congrArg (List.drop Q.repl.length) hsplit
      rw [List.drop_left] at hd
      rw [List.drop_append_eq_append_drop, show Q.repl.length - a.length = 0 by omega,
        List.drop_zero] at hd
      exact hd
    exact hout _ b hb hev
  · push_neg at ha
    have hb : b = Q.repl.drop a.length ++ out := by
      have hd := congrArg (List.drop a.length) hsplit
      rw [List.drop_append_eq_append_drop, show a.length - Q.repl.length = 0 by omega,
        List.drop_zero] at hd
      rw [List.drop_left] at hd
      exact hd.symm
    have region := evidence_no_star P b hev hPstar
    by_cases hcase : Q.repl.length ≤ a.length + (P.pre.length + P.minLen)
    · obtain ⟨c, hc, hcne⟩ := region (Q.repl.length - 1 - a.length) (by omega)
      have hstar : b.get? (Q.repl.length - 1 - a.length) = some '*' := by
        rw [hb, List.get?_append (by simp [List.length_drop]; omega), List.get?_drop]
        rw [show a.length + (Q.repl.length - 1 - a.length) = Q.repl.length - 1 by omega]
        rw [← List.getLast?_eq_get?]
        exact hQlast
      rw [hstar] at hc
      injection hc with hc
      exact hcne hc.symm
    · push_neg at hcase
      refine hcross a.length (by omega) ⟨by omega, ?_⟩
      refine evidence_ext P b _ ?_ hev
      rw [hb, List.take_append_of_le_length (by simp [List.length_drop]; omega)]

/-- The output of one substitution pass either is the input unchanged, or
agrees with the input up to some position and carries a star there (the
star-free lead of the first replacement agrees with the matched text it
replaced, because that lead is a prelude of the pattern prelude). -/
theorem subPat_front (Q : Pat) (hQL : Lpart Q <+: Q.pre)
    (hQstar : Q.repl.get? (Lpart Q).length = some '*') :
    ∀ s : List Char, subPat Q s = s ∨
      ∃ n, (subPat Q s).take n = s.take n ∧ (subPat Q s).get? n = some '*' := by
  intro s
  induction s with
  | nil => left; exact subPat_nil Q
  | cons c rest ih =>
    cases hhead : headLen Q (c :: rest) with
    | none =>
      rw [subPat_cons_none Q c rest hhead]
      rcases ih with hid | ⟨n, hagree, hstar⟩
      · left; rw [hid]
      · right
        exact ⟨n + 1, by simp [hagree], by simpa using hstar⟩
    | some n =>
      right
      rw [subPat_cons_some Q c rest n hhead]
      have hLrepl : (Lpart Q).length < Q.repl.length := by
        by_contra hle
        push_neg at hle
        rw [List.get?_eq_none.mpr hle] at hQstar
        exact Option.noConfusion hQstar
      have hLtake : Q.repl.take (Lpart Q).length = Lpart Q :=
        (List.prefix_iff_eq_take.mp (List.takeWhile_prefix _)).symm
      refine ⟨(Lpart Q).length, ?_, ?_⟩
      · rw [List.take_append_of_le_length (by omega), hLtake]
        obtain ⟨run, -, -, -, -, hev⟩ := headLen_eq_some Q (c :: rest) n hhead
        have hpre : Q.pre <+: c :: rest := by
          rw [← List.isPrefixOf_iff_prefix]; exact hev.1
        have hL : Lpart Q <+: c :: rest := hQL.trans hpre
        exact (List.prefix_iff_eq_take.mp hL)
      · rw [List.get?_append hLrepl]
        exact hQstar

/-- The main cleanliness lemma for one pass: a pass of pattern Q removes all
match evidence of Q, and preserves the absence of match evidence of any
pattern P satisfying the decidable pattern facts. -/
theorem subPat_clean (Q P : Pat)
    (hQpre : Q.pre ≠ []) (hPpre : P.pre ≠ []) (hPstar : '*' ∉ P.pre)
    (hQL : Lpart Q <+: Q.pre) (hQstar : Q.repl.get? (Lpart Q).length = some '*')
    (hQlast : Q.repl.getLast? = some '*') (hcross : crossGood Q P) :
    ∀ (fuel : Nat) (s : List Char), s.length ≤ fuel →
      (P = Q ∨ ∀ a b, s = a ++ b → ¬ evidence P b) →
      ∀ a b, subPat Q s = a ++ b → ¬ evidence P b := by
  intro fuel
  induction fuel with
  | zero =>
    intro s hlen hcase a b hsplit hev
    have hs : s = [] := List.length_eq_zero.mp (by omega)
    subst hs
    have hb : b = [] := by
      rw [subPat_nil Q] at hsplit
      exact (List.append_eq_nil.mp hsplit.symm).2
    subst hb
    obtain ⟨h1, -⟩ := hev
    rw [List.isPrefixOf_iff_prefix] at h1
    exact hPpre (List.prefix_nil.mp h1)
  | succ f ih =>
    intro s hlen hcase a b hsplit hev
    cases s with
    | nil =>
      have hb : b = [] := by
        rw [subPat_nil Q] at hsplit
        exact (List.append_eq_nil.mp hsplit.symm).2
      subst hb
      obtain ⟨h1, -⟩ := hev
      rw [List.isPrefixOf_iff_prefix] at h1
      exact hPpre (List.prefix_nil.mp h1)
    | cons c rest =>
      have hrest_len : rest.length ≤ f := by simp at hlen; omega
      cases hhead : headLen Q (c :: rest) with
      | none =>
        rw [subPat_cons_none Q c rest hhead] at hsplit
        cases a with
        | nil =>
          simp only [List.nil_append] at hsplit
          subst hsplit
          -- evidence at position 0 of c :: subPat Q rest
          have hcontra : evidence P (c :: rest) → False := by
            intro hev'
            rcases hcase with hPQ | hno
            · subst hPQ
              rw [headLen_eq_none_iff] at hhead
              exact hhead hev'
            · exact hno [] (c :: rest) rfl hev'
          rcases subPat_front Q hQL hQstar rest with hid | ⟨n, hagree, hstar⟩
          · rw [hid] at hev
            exact hcontra hev
          · by_cases hKn : P.pre.length + P.minLen ≤ n + 1
            · refine hcontra (evidence_ext P (c :: subPat Q rest) (c :: rest) ?_ hev)
              have hK1 : 1 ≤ P.pre.length := List.length_pos.mpr hPpre
              set K := P.pre.length + P.minLen with hK
              have h1 : (c :: subPat Q rest).take K = c :: (subPat Q rest).take (K - 1) := by
                rw [show K = (K - 1) + 1 by omega]
                rfl
              have h2 : (c :: rest).take K = c :: rest.take (K - 1) := by
                rw [show K = (K - 1) + 1 by omega]
                rfl
              rw [h1, h2]
              have h3 : (subPat Q rest).take (K - 1) = rest.take (K - 1) := by
                have h4 : (subPat Q rest).take (K - 1) =
                    ((subPat Q rest).take n).take (K - 1) := by
                  rw [List.take_take]
                  congr 1
                  omega
                rw [h4, hagree, List.take_take]
                congr 1
                omega
              rw [h3]
            · push_neg at hKn
              obtain ⟨ch, hch, hchne⟩ :=
                evidence_no_star P _ hev hPstar (n + 1) (by omega)
              have : (c :: subPat Q rest).get? (n + 1) = some '*' := by
                simpa using hstar
              rw [this] at hch
              injection hch with hch
              exact hchne hch.symm
        | cons c' a' =>
          simp only [List.cons_append] at hsplit
          have heq1 : subPat Q rest = a' ++ b := (List.cons.injEq _ _ _ _).mp hsplit |>.2
          have hcase' : P = Q ∨ ∀ x y, rest = x ++ y → ¬ evidence P y := by
            rcases hcase with hPQ | hno
            · exact Or.inl hPQ
            · exact Or.inr fun x y hxy => hno (c :: x) y (by rw [hxy]; rfl)
          exact ih rest hrest_len hcase' a' b heq1 hev
      | some n =>
        rw [subPat_cons_some Q c rest n hhead] at hsplit
        obtain ⟨run, htake, -, -, hn, hevQ⟩ := headLen_eq_some Q (c :: rest) n hhead
        have hn1 : 1 ≤ n := by
          have := List.length_pos.mpr hQpre
          omega
        have hdrop_len : (rest.drop (n - 1)).length ≤ f := by
          simp [List.length_drop] at hrest_len ⊢
          omega
        have hcase' : P = Q ∨ ∀ x y, rest.drop (n - 1) = x ++ y → ¬ evidence P y := by
          rcases hcase with hPQ | hno
          · exact Or.inl hPQ
          · refine Or.inr fun x y hxy => ?_
            have hsd : rest.drop (n - 1) = (c :: rest).drop n := by
              rw [show n = (n - 1) + 1 by omega]
              rfl
            have : c :: rest = ((c :: rest).take n ++ x) ++ y := by
              conv_lhs => rw [← List.take_append_drop n (c :: rest)]
              rw [← hsd, hxy, List.append_assoc]
            exact hno _ y this
        have hout := ih (rest.drop (n - 1)) hdrop_len hcase'
        exact block_no_evid Q P hPpre hPstar hQlast hcross
          (subPat Q (rest.drop (n - 1))) hout a b hsplit hev

/-- A pass with no match anywhere is the identity. -/
theorem subPat_id (Q : Pat) :
    ∀ s : List Char, (∀ a b, s = a ++ b → ¬ evidence Q b) → subPat Q s = s := by
  intro s
  induction s with
  | nil => intro _; exact subPat_nil Q
  | cons c rest ih =>
    intro hno
    cases hhead : headLen Q (c :: rest) with
    | none =>
      rw [subPat_cons_none Q c rest hhead]
      rw [ih fun x y hxy => hno (c :: x) y (by rw [hxy]; rfl)]
    | some n =>
      exfalso
      have hev : evidence Q (c :: rest) := by
        by_contra hne
        rw [← headLen_eq_none_iff] at hne
        rw [hne] at hhead
        exact Option.noConfusion hhead
      exact hno [] (c :: rest) rfl hev

/-- A pass with a match somewhere inserts its replacement text. -/
theorem subPat_fires (Q : Pat) (hQpre : Q.pre ≠ []) :
    ∀ s : List Char, (∃ a b, s = a ++ b ∧ evidence Q b) →
      Q.repl <:+: subPat Q s := by
  intro s
  induction s with
  | nil =>
    rintro ⟨a, b, hab, hev⟩
    have hb : b = [] := (List.append_eq_nil.mp hab.symm).2
    subst hb
    obtain ⟨h1, -⟩ := hev
    rw [List.isPrefixOf_iff_prefix] at h1
    exact absurd (List.prefix_nil.mp h1) hQpre
  | cons c rest ih =>
    rintro ⟨a, b, hab, hev⟩
    cases hhead : headLen Q (c :: rest) with
    | some n =>
      rw [subPat_cons_some Q c rest n hhead]
      exact ⟨[], subPat Q (rest.drop (n - 1)), by simp⟩
    | none =>
      rw [subPat_cons_none Q c rest hhead]
      cases a with
      | nil =>
        exfalso
        simp only [List.nil_append] at hab
        subst hab
        rw [headLen_eq_none_iff] at hhead
        exact hhead hev
      | cons c' a' =>
        have hrest : rest = a' ++ b := ((List.cons.injEq _ _ _ _).mp hab).2
        obtain ⟨x, y, hxy⟩ := ih ⟨a', b, hrest, hev⟩
        exact ⟨c :: x, y, by rw [← hxy]; rfl⟩

/-- A prefix of the input survives a pass as a prefix, unless a replacement
(which carries the marker) was inserted at or before its end. -/
theorem subPat_keep_pre (Q : Pat) (hrm : redactMarker <:+: Q.repl) :
    ∀ (s M : List Char), M <+: s →
      M <+: subPat Q s ∨ redactMarker <:+: subPat Q s := by
  intro s
  induction s with
  | nil =>
    intro M hM
    rw [List.prefix_nil.mp hM]
    exact Or.inl List.nil_prefix
  | cons c rest ih =>
    intro M hM
    cases hhead : headLen Q (c :: rest) with
    | some n =>
      rw [subPat_cons_some Q c rest n hhead]
      obtain ⟨x, y, hxy⟩ := hrm
      exact Or.inr ⟨x, y ++ subPat Q (rest.drop (n - 1)), by simp [← hxy]⟩
    | none =>
      rw [subPat_cons_none Q c rest hhead]
      cases M with
      | nil => exact Or.inl List.nil_prefix
      | cons m M' =>
        obtain ⟨t, ht⟩ := hM
        rw [List.cons_append] at ht
        injection ht with hm hrest
        rcases ih M' ⟨t, hrest⟩ with h | hmk
        · obtain ⟨t', ht'⟩ := h
          exact Or.inl ⟨t', by rw [List.cons_append, hm, ht']⟩
        · obtain ⟨x, y, hxy⟩ := hmk
          exact Or.inr ⟨c :: x, y, by simp [← hxy]⟩

/-- The marker, once present, survives any later pass. -/
theorem subPat_keep (Q : Pat) (hrm : redactMarker <:+: Q.repl) :
    ∀ s : List Char, redactMarker <:+: s → redactMarker <:+: subPat Q s := by
  intro s
  induction s with
  | nil =>
    rintro ⟨x, y, hxy⟩
    exfalso
    have := congrArg List.length hxy
    simp [redactMarker] at this
  | cons c rest ih =>
    rintro ⟨x, y, hxy⟩
    cases hhead : headLen Q (c :: rest) with
    | some n =>
      rw [subPat_cons_some Q c rest n hhead]
      obtain ⟨u, v, huv⟩ := hrm
      exact ⟨u, v ++ subPat Q (rest.drop (n - 1)), by simp [← huv]⟩
    | none =>
      rw [subPat_cons_none Q c rest hhead]
      cases x with
      | nil =>
        simp only [List.nil_append] at hxy
        rcases subPat_keep_pre Q hrm (c :: rest) redactMarker ⟨y, hxy⟩ with h | h
        · obtain ⟨t, ht⟩ := h
          rw [subPat_cons_none Q c rest hhead] at ht
          exact ⟨[], t, by simpa using ht⟩
        · rw [subPat_cons_none Q c rest hhead] at h
          exact h
      | cons x0 x' =>
        rw [List.cons_append] at hxy
        injection hxy with hx0 hrest
        obtain ⟨u, v, huv⟩ := ih ⟨x', y, hrest⟩
        exact ⟨c :: u, v, by simp [← huv]⟩

/-- Folding later passes preserves the marker. -/
theorem foldl_keep (ps : List Pat) (h : ∀ Q ∈ ps, redactMarker <:+: Q.repl) :
    ∀ x : List Char, redactMarker <:+: x →
      redactMarker <:+: ps.foldl (fun acc Q => subPat Q acc) x := by
  induction ps with
  | nil => intro x hx; exact hx
  | cons Q ps ih =>
    intro x hx
    rw [List.foldl_cons]
    exact ih (fun Q' hQ' => h Q' (List.mem_cons_of_mem Q hQ'))
      (subPat Q x) (subPat_keep Q (h Q (List.mem_cons_self Q ps)) x hx)

/-- If some pattern of the list has match evidence in the input at the time
its pass runs, the marker appears in the fold result. -/
theorem foldl_fires (ps : List Pat)
    (h : ∀ Q ∈ ps, Q.pre ≠ [] ∧ redactMarker <:+: Q.repl) :
    ∀ x : List Char, (∃ P ∈ ps, ∃ a b, x = a ++ b ∧ evidence P b) →
      redactMarker <:+: ps.foldl (fun acc Q => subPat Q acc) x := by
  induction ps with
  | nil => rintro x ⟨P, hP, -⟩; exact absurd hP (List.not_mem_nil P)
  | cons Q ps ih =>
    rintro x ⟨P, hPmem, a, b, hab, hev⟩
    rw [List.foldl_cons]
    by_cases hQ : ∃ a b, x = a ++ b ∧ evidence Q b
    · have hfired := subPat_fires Q (h Q (List.mem_cons_self Q ps)).1 x hQ
      have hmark : redactMarker <:+: subPat Q x :=
        ((h Q (List.mem_cons_self Q ps)).2).trans hfired
      exact foldl_keep ps
        (fun Q' hQ' => (h Q' (List.mem_cons_of_mem Q hQ')).2) _ hmark
    · have hid : subPat Q x = x :=
        subPat_id Q x fun a' b' hab' hev' => hQ ⟨a', b', hab', hev'⟩
      rw [hid]
      rcases List.mem_cons.mp hPmem with hPQ | hPps
      · exact absurd ⟨a, b, hab, hPQ ▸ hev⟩ hQ
      · exact ih (fun Q' hQ' => h Q' (List.mem_cons_of_mem Q hQ')) x
          ⟨P, hPps, a, b, hab, hev⟩

/-- Cleanliness propagates through the remaining passes. -/
theorem foldl_clean (P : Pat) (hPpre : P.pre ≠ []) (hPstar : '*' ∉ P.pre) :
    ∀ ps : List Pat,
      (∀ Q ∈ ps, Q.pre ≠ [] ∧ Lpart Q <+: Q.pre ∧
        Q.repl.get? (Lpart Q).length = some '*' ∧ Q.repl.getLast? = some '*' ∧
        crossGood Q P) →
      ∀ x : List Char, (∀ a b, x = a ++ b → ¬ evidence P b) →
        ∀ a b, ps.foldl (fun acc Q => subPat Q acc) x = a ++ b → ¬ evidence P b := by
  intro ps
  induction ps with
  | nil => intro _ x hx a b hab; rw [List.foldl_nil] at hab; exact hx a b hab
  | cons Q ps ih =>
    intro hfacts x hx a b
    rw [List.foldl_cons]
    obtain ⟨hQpre, hQL, hQstar, hQlast, hcross⟩ := hfacts Q (List.mem_cons_self Q ps)
    exact ih (fun Q' hQ' => hfacts Q' (List.mem_cons_of_mem Q hQ')) (subPat Q x)
      (subPat_clean Q P hQpre hPpre hPstar hQL hQstar hQlast hcross x.length x le_rfl
        (Or.inr hx)) a b

/-- After the full sanitizer fold, no pattern of the list has match evidence
anywhere in the result. -/
theorem sanitizeL_clean (P : Pat) (hmem : P ∈ sanitizePats) :
    ∀ (s a b : List Char), sanitizeL s = a ++ b → ¬ evidence P b := by
  intro s a b hab
  obtain ⟨l₁, l₂, hsplit⟩ := List.append_of_mem hmem
  have hfacts := sanitizePats_facts
  have hPfacts := hfacts.1 P hmem
  have hl₂ : ∀ Q ∈ l₂, Q ∈ sanitizePats := by
    intro Q hQ
    rw [hsplit]
    exact List.mem_append_right l₁ (List.mem_cons_of_mem P hQ)
  have hcross : ∀ Q ∈ sanitizePats, crossGood Q P := fun Q hQ => hfacts.2 Q hQ P hmem
  rw [sanitizeL, hsplit, List.foldl_append, List.foldl_cons] at hab
  refine foldl_clean P hPfacts.1 hPfacts.2.1 l₂
    (fun Q hQ => ⟨(hfacts.1 Q (hl₂ Q hQ)).1, (hfacts.1 Q (hl₂ Q hQ)).2.2.1,
      (hfacts.1 Q (hl₂ Q hQ)).2.2.2.1, (hfacts.1 Q (hl₂ Q hQ)).2.2.2.2.1,
      hcross Q (hl₂ Q hQ)⟩)
    (subPat P (List.foldl (fun acc Q => subPat Q acc) s l₁))
    (subPat_clean P P hPfacts.1 hPfacts.1 hPfacts.2.1 hPfacts.2.2.1
      hPfacts.2.2.2.1 hPfacts.2.2.2.2.1 (hcross P hmem) _ _ le_rfl (Or.inl rfl))
    a b hab

/-- An occurrence of a matched secret anywhere yields match evidence there. -/
theorem secret_occurrence (P : Pat) (m out : List Char)
    (hm : ∃ run, m = P.pre ++ run ∧ run.all keyChar ∧ P.minLen ≤ run.length)
    (hocc : m <:+: out) : ∃ a b, out = a ++ b ∧ evidence P b := by
  obtain ⟨run, hrun, hall, hlen⟩ := hm
  obtain ⟨x, y, hxy⟩ := hocc
  refine ⟨x, m ++ y, by rw [← hxy]; simp, ?_⟩
  constructor
  · rw [List.isPrefixOf_iff_prefix]
    exact ⟨run ++ y, by rw [hrun]; simp⟩
  · have hdrop : (m ++ y).drop P.pre.length = run ++ y := by
      rw [hrun, List.append_assoc, List.drop_left]
    rw [hdrop, le_length_takeWhile_iff]
    refine ⟨by simp; omega, ?_⟩
    rw [List.take_append_of_le_length hlen]
    rw [List.all_eq_true] at hall ⊢
    exact fun c hc => hall c (List.mem_of_mem_take hc)

/-- Claim C9: for every input containing a recognized key-shaped substring
(one of the seven sanitizer patterns matches somewhere), sanitize_error
returns a string that contains the redaction marker and contains none of the
original secret substrings (no string matched by any pattern in the input
occurs in the output; indeed the output carries no match evidence at all). -/
theorem c9_sanitize_redacts (s : String)
    (h : ∃ P ∈ sanitizePats, ∃ a b, s.toList = a ++ b ∧ evidence P b) :
    redactMarker <:+: (sanitize_error s).toList ∧
      ∀ P ∈ sanitizePats, ∀ (a b : List Char) (n : Nat), s.toList = a ++ b →
        headLen P b = some n → ¬ b.take n <:+: (sanitize_error s).toList := by
  have htl : (sanitize_error s).toList = sanitizeL s.toList := rfl
  constructor
  · rw [htl]
    exact foldl_fires sanitizePats
      (fun Q hQ => ⟨(sanitizePats_facts.1 Q hQ).1,
        (sanitizePats_facts.1 Q hQ).2.2.2.2.2⟩) s.toList h
  · intro P hP a b n hsplit hlen hocc
    rw [htl] at hocc
    obtain ⟨run, htake, hall, hminlen, -, -⟩ := headLen_eq_some P b n hlen
    obtain ⟨x, y, hxy, hev⟩ :=
      secret_occurrence P (b.take n) (sanitizeL s.toList)
        ⟨run, htake, hall, hminlen⟩ hocc
    exact sanitizeL_clean P hP s.toList x y hxy hev

/-- Witness for C9 at a concrete bearer token. -/
theorem c9_witness :
    redactMarker <:+:
      (sanitize_error "auth Bearer abcdefghijklmnopqrstuv failed").toList :=
  (c9_sanitize_redacts "auth Bearer abcdefghijklmnopqrstuv failed"
    ⟨⟨"Bearer ".toList, 20, "Bearer ***REDACTED***".toList⟩, by decide,
      "auth ".toList, "Bearer abcdefghijklmnopqrstuv failed".toList,
      by decide, by decide⟩).1

end CognitiveStack
